import Mathlib

/-!
Verification development for the bdk-ffi wallet bridge (`src/bdk-ffi/src/lib.rs`).

The Rust file is a thin FFI layer over the `bdk` wallet library and the
`bitcoin` consensus codec.  We shallowly embed the data model and the
operations the specification talks about:

* the consensus transaction codec used by `Transaction::new` /
  `Transaction::serialize` (the codec body lives in the `bitcoin`
  dependency; it is modelled from the spec's description of the standard
  consensus serialization: version, input list, output list, optional
  witness data, locktime, with canonical variable-length integers);
* the balance conversion `From<BdkBalance> for Balance`;
* the UTXO materialization `LocalUtxo::from_utxo`;
* the outpoint conversion `From<&OutPoint> for BdkOutPoint`;
* the transaction-details conversion;
* the sync progress bridge `impl BdkProgress for ProgressHolder`;
* the address-index strategy enum and its conversion, plus the
  address-index state machine described in the spec.

Bytes are modelled as natural numbers below 256; fallible operations
return `Option` (with `none` standing for a decode error or, where noted,
for a Rust `unwrap` panic).
-/

namespace BdkFfi

/-- Predicate: every element of the list is a byte value (below 256). -/
def Bytes (b : List Nat) : Prop := ∀ x ∈ b, x < 256

instance : DecidablePred Bytes := fun b => List.decidableBAll (· < 256) b

/-- Value of a little-endian byte list. -/
def leVal : List Nat → Nat
  | [] => 0
  | x :: r => x + 256 * leVal r

/-- Little-endian encoding of a value into a fixed number of bytes. -/
def leBytes : Nat → Nat → List Nat
  | 0, _ => []
  | k + 1, v => v % 256 :: leBytes k (v / 256)

/-- Split off a fixed number of bytes from the front of the input. -/
def readBytes (k : Nat) (b : List Nat) : Option (List Nat × List Nat) :=
  if k ≤ b.length then some (b.take k, b.drop k) else none

/-- Read a fixed-width little-endian unsigned integer. -/
def readLE (k : Nat) (b : List Nat) : Option (Nat × List Nat) :=
  match readBytes k b with
  | some (v, r) => some (leVal v, r)
  | none => none

/-- Encoded length of a Bitcoin variable-length integer. -/
def varIntLen (n : Nat) : Nat :=
  if n < 253 then 1
  else if n < 65536 then 3
  else if n < 4294967296 then 5
  else 9

/-- Encoding of a Bitcoin variable-length integer (CompactSize). -/
def varIntEnc (n : Nat) : List Nat :=
  if n < 253 then [n]
  else if n < 65536 then 253 :: leBytes 2 n
  else if n < 4294967296 then 254 :: leBytes 4 n
  else 255 :: leBytes 8 n

/-- Decoding of a variable-length integer.  Non-minimal encodings are
rejected, as the consensus decoder requires canonical form. -/
def readVarInt (b : List Nat) : Option (Nat × List Nat) :=
  match b with
  | [] => none
  | x :: r =>
    if x < 253 then some (x, r)
    else if x = 253 then
      match readLE 2 r with
      | some (n, r2) => if n < 253 then none else some (n, r2)
      | none => none
    else if x = 254 then
      match readLE 4 r with
      | some (n, r2) => if n < 65536 then none else some (n, r2)
      | none => none
    else if x = 255 then
      match readLE 8 r with
      | some (n, r2) => if n < 4294967296 then none else some (n, r2)
      | none => none
    else none

/-- Encoding of a length-prefixed byte string (scripts, witness items). -/
def varBytesEnc (v : List Nat) : List Nat := varIntEnc v.length ++ v

/-- Decoding of a length-prefixed byte string. -/
def readVarBytes (b : List Nat) : Option (List Nat × List Nat) :=
  match readVarInt b with
  | some (n, r) => readBytes n r
  | none => none

/-- Reference to the output being spent by an input: 32-byte txid plus
a 32-bit output index, as serialized inside a transaction. -/
structure TxOutPoint where
  txid : List Nat
  vout : Nat
deriving DecidableEq, Repr

/-- Serialization of an input's previous-output reference. -/
def txOutPointEnc (o : TxOutPoint) : List Nat := o.txid ++ leBytes 4 o.vout

/-- Decoding of an input's previous-output reference. -/
def readTxOutPoint (b : List Nat) : Option (TxOutPoint × List Nat) :=
  match readBytes 32 b with
  | some (t, r) =>
    match readLE 4 r with
    | some (v, r2) => some (⟨t, v⟩, r2)
    | none => none
  | none => none

/-- Transaction input: previous output, signature script, sequence
number, and (for segwit transactions) a witness stack. -/
structure TxIn where
  previous_output : TxOutPoint
  script_sig : List Nat
  sequence : Nat
  witness : List (List Nat)
deriving DecidableEq, Repr

/-- Serialization of the non-witness part of an input. -/
def txInEnc (i : TxIn) : List Nat :=
  txOutPointEnc i.previous_output ++ varBytesEnc i.script_sig ++ leBytes 4 i.sequence

/-- Decoding of the non-witness part of an input; the witness stack is
initialized empty, exactly as in the legacy decode path. -/
def readTxIn (b : List Nat) : Option (TxIn × List Nat) :=
  match readTxOutPoint b with
  | some (o, r) =>
    match readVarBytes r with
    | some (s, r2) =>
      match readLE 4 r2 with
      | some (q, r3) => some (⟨o, s, q, []⟩, r3)
      | none => none
    | none => none
  | none => none

/-- Transaction output: value in satoshis and the locking script. -/
structure TxOut where
  value : Nat
  script_pubkey : List Nat
deriving DecidableEq, Repr

/-- Serialization of an output. -/
def txOutEnc (o : TxOut) : List Nat := leBytes 8 o.value ++ varBytesEnc o.script_pubkey

/-- Decoding of an output. -/
def readTxOut (b : List Nat) : Option (TxOut × List Nat) :=
  match readLE 8 b with
  | some (v, r) =>
    match readVarBytes r with
    | some (s, r2) => some (⟨v, s⟩, r2)
    | none => none
  | none => none

/-- Run a reader a fixed number of times, collecting the results. -/
def readMany (f : List Nat → Option (α × List Nat)) :
    Nat → List Nat → Option (List α × List Nat)
  | 0, b => some ([], b)
  | k + 1, b =>
    match f b with
    | some (v, r) =>
      match readMany f k r with
      | some (vs, r2) => some (v :: vs, r2)
      | none => none
    | none => none

/-- Decoding of a length-prefixed vector. -/
def readVec (f : List Nat → Option (α × List Nat)) (b : List Nat) :
    Option (List α × List Nat) :=
  match readVarInt b with
  | some (n, r) => readMany f n r
  | none => none

/-- Serialization of a length-prefixed vector. -/
def vecEnc (g : α → List Nat) (xs : List α) : List Nat :=
  varIntEnc xs.length ++ (xs.map g).flatten

/-- Serialization of one input's witness stack. -/
def witnessEnc (w : List (List Nat)) : List Nat := vecEnc varBytesEnc w

/-- Decoding of one input's witness stack. -/
def readWitness (b : List Nat) : Option (List (List Nat) × List Nat) :=
  readVec readVarBytes b

/-- Read one witness stack per input, attaching each stack to its input
in order, exactly as the segwit decode path does. -/
def readWitsFor : List TxIn → List Nat → Option (List TxIn × List Nat)
  | [], b => some ([], b)
  | i :: is, b =>
    match readWitness b with
    | some (w, r) =>
      match readWitsFor is r with
      | some (is2, r2) => some ({ i with witness := w } :: is2, r2)
      | none => none
    | none => none

/-- A Bitcoin transaction: version, inputs, outputs, lock time.
The version is the 32-bit pattern of the signed version field. -/
structure Transaction where
  version : Nat
  input : List TxIn
  output : List TxOut
  lock_time : Nat
deriving DecidableEq, Repr

/-- Modelled from the spec: the consensus serialization of a transaction
(the encoder body lives in the `bitcoin` dependency, outside `src/`).
BIP144 (marker and flag bytes, then per-input witness stacks) is used
exactly when some input carries a witness or the input list is empty;
otherwise the legacy layout is used. -/
def txEnc (tx : Transaction) : List Nat :=
  if tx.input.isEmpty || tx.input.any (fun i => !i.witness.isEmpty) then
    leBytes 4 tx.version ++ [0, 1] ++ vecEnc txInEnc tx.input ++
      vecEnc txOutEnc tx.output ++
      (tx.input.map (fun i => witnessEnc i.witness)).flatten ++
      leBytes 4 tx.lock_time
  else
    leBytes 4 tx.version ++ vecEnc txInEnc tx.input ++
      vecEnc txOutEnc tx.output ++ leBytes 4 tx.lock_time

/-- Modelled from the spec: the consensus decoding of a transaction from
a byte stream (the decoder body lives in the `bitcoin` dependency,
outside `src/`).  The decoder consumes a prefix of the input and returns
the remaining bytes; if the input list is empty it expects the BIP144
marker/flag and witness data, and a witness-flagged transaction with a
nonempty input list in which every witness stack is empty is rejected,
preserving the byte-exact round-trip the spec requires. -/
def decodeTx (b : List Nat) : Option (Transaction × List Nat) :=
  match readLE 4 b with
  | none => none
  | some (version, r1) =>
    match readVec readTxIn r1 with
    | none => none
    | some (ins, r2) =>
      if ins.isEmpty then
        match r2 with
        | [] => none
        | flag :: r3 =>
          if flag = 1 then
            match readVec readTxIn r3 with
            | none => none
            | some (ins2, r4) =>
              match readVec readTxOut r4 with
              | none => none
              | some (outs, r5) =>
                match readWitsFor ins2 r5 with
                | none => none
                | some (ins3, r6) =>
                  if !ins3.isEmpty && ins3.all (fun i => i.witness.isEmpty) then
                    none
                  else
                    match readLE 4 r6 with
                    | none => none
                    | some (lt, r7) => some (⟨version, ins3, outs, lt⟩, r7)
          else none
      else
        match readVec readTxOut r2 with
        | none => none
        | some (outs, r3) =>
          match readLE 4 r3 with
          | none => none
          | some (lt, r4) => some (⟨version, ins, outs, lt⟩, r4)

/-- FFI constructor `Transaction::new`: decode the given bytes with the
consensus decoder over a cursor; `none` models the returned error.  The
cursor's remaining bytes are discarded without any check. -/
def Transaction.new (transaction_bytes : List Nat) : Option Transaction :=
  match decodeTx transaction_bytes with
  | some (tx, _) => some tx
  | none => none

/-- FFI accessor `Transaction::serialize`: consensus-encode the held
transaction. -/
def Transaction.serialize (tx : Transaction) : List Nat := txEnc tx

/-- Legacy (pre-segwit) serialization of a transaction, used to count
the non-witness bytes for weight accounting. -/
def txEncLegacy (tx : Transaction) : List Nat :=
  leBytes 4 tx.version ++ vecEnc txInEnc tx.input ++
    vecEnc txOutEnc tx.output ++ leBytes 4 tx.lock_time

/-- Total serialized size of a transaction, in bytes. -/
def Transaction.totalSize (tx : Transaction) : Nat := (txEnc tx).length

/-- Non-witness (base) size of a transaction: the length of its legacy
serialization. -/
def Transaction.baseSize (tx : Transaction) : Nat := (txEncLegacy tx).length

/-- Serialized size of an input's non-witness part. -/
def txInBaseSize (i : TxIn) : Nat :=
  36 + varIntLen i.script_sig.length + i.script_sig.length + 4

/-- Serialized size of an output. -/
def txOutSize (o : TxOut) : Nat :=
  8 + varIntLen o.script_pubkey.length + o.script_pubkey.length

/-- Serialized size of one input's witness stack. -/
def witnessSerLen (w : List (List Nat)) : Nat :=
  varIntLen w.length + (w.map (fun e => varIntLen e.length + e.length)).sum

/-- Modelled from the spec: `Transaction::weight` delegates to the
`bitcoin` dependency; per the spec, witness data (including the BIP144
marker and flag) is counted at one weight unit per byte and non-witness
data at four units per byte. -/
def Transaction.weight (tx : Transaction) : Nat :=
  let inputBase := (tx.input.map txInBaseSize).sum
  let nonInput := 4 + varIntLen tx.input.length + varIntLen tx.output.length +
    (tx.output.map txOutSize).sum + 4
  if tx.input.isEmpty || tx.input.any (fun i => !i.witness.isEmpty) then
    4 * (nonInput + inputBase) + 2 +
      (tx.input.map (fun i => witnessSerLen i.witness)).sum
  else
    4 * (nonInput + inputBase)

/-- FFI accessor `Transaction::size`: the total serialized size. -/
def Transaction.size (tx : Transaction) : Nat := Transaction.totalSize tx

/-- Modelled from the spec: `Transaction::vsize` is the weight divided
by four, rounded up. -/
def Transaction.vsize (tx : Transaction) : Nat := (Transaction.weight tx + 3) / 4

/-- Hexadecimal rendering of one byte (two lowercase digits). -/
def byteToHex (b : Nat) : List Char := [Nat.digitChar (b / 16), Nat.digitChar (b % 16)]

/-- Display form of a txid: the 32 bytes in reverse order, in hex, as
produced by `Txid::to_string`. -/
def txidToString (txid : List Nat) : String :=
  ⟨(txid.reverse.map byteToHex).flatten⟩

/-- Value of one hexadecimal character, if it is one. -/
def hexCharVal (c : Char) : Option Nat :=
  if '0' ≤ c ∧ c ≤ '9' then some (c.toNat - 48)
  else if 'a' ≤ c ∧ c ≤ 'f' then some (c.toNat - 87)
  else if 'A' ≤ c ∧ c ≤ 'F' then some (c.toNat - 55)
  else none

/-- Parse a character list as consecutive hex byte pairs. -/
def hexPairsToBytes : List Char → Option (List Nat)
  | [] => some []
  | c1 :: c2 :: rest =>
    match hexCharVal c1, hexCharVal c2, hexPairsToBytes rest with
    | some a, some b, some bs => some ((16 * a + b) :: bs)
    | _, _, _ => none
  | [_] => none

/-- Modelled from the spec: `Txid::from_str` (in the `bitcoin`
dependency) parses exactly 64 hex characters into the 32 txid bytes,
reversing the displayed byte order. -/
def txidFromStr (s : String) : Option (List Nat) :=
  if s.length = 64 then (hexPairsToBytes s.data).map List.reverse else none

/-- Configured network for address rendering. -/
inductive Network
  | bitcoin
  | testnet
  | signet
  | regtest
deriving DecidableEq, Repr

/-- Keychain of an owned output. -/
inductive KeychainKind
  | external
  | internal
deriving DecidableEq, Repr

/-- Address payload: the standard output forms recognized when turning
a script into an address. -/
inductive Payload
  | pubkeyHash (h : List Nat)
  | scriptHash (h : List Nat)
  | witnessProgram (version : Nat) (program : List Nat)
deriving DecidableEq, Repr

/-- A parsed address: network plus payload.  The source renders this as
a base58/bech32 string; that rendering is injective on network and
payload and is abstracted here. -/
structure BdkAddress where
  network : Network
  payload : Payload
deriving DecidableEq, Repr

/-- Modelled from the spec: `Address::from_script` (in the `bitcoin`
dependency) recognizes the standard output forms — pay-to-pubkey-hash,
pay-to-script-hash, and segwit witness programs — and fails on any
other script. -/
def addressFromScript (s : List Nat) (network : Network) : Option BdkAddress :=
  match s with
  | 118 :: 169 :: 20 :: rest =>
    if rest.length = 22 && rest.drop 20 = [136, 172] then
      some ⟨network, Payload.pubkeyHash (rest.take 20)⟩
    else none
  | 169 :: 20 :: rest =>
    if rest.length = 21 && rest.drop 20 = [135] then
      some ⟨network, Payload.scriptHash (rest.take 20)⟩
    else none
  | v :: n :: prog =>
    if v = 0 then
      if n = prog.length && (n = 20 || n = 32) then
        some ⟨network, Payload.witnessProgram 0 prog⟩
      else none
    else if 81 ≤ v && v ≤ 96 then
      if n = prog.length && 2 ≤ n && n ≤ 40 then
        some ⟨network, Payload.witnessProgram (v - 80) prog⟩
      else none
    else none
  | _ => none

/-- FFI outpoint: the txid is carried as a display string. -/
structure OutPoint where
  txid : String
  vout : Nat
deriving DecidableEq, Repr

/-- Backend outpoint: 32 txid bytes plus the output index. -/
structure BdkOutPoint where
  txid : List Nat
  vout : Nat
deriving DecidableEq, Repr

/-- Conversion `From<&OutPoint> for BdkOutPoint`: the source calls
`Txid::from_str(&x.txid).unwrap()`, so a txid string that does not
parse makes the conversion panic; `none` models that panic. -/
def outPointToBdk (x : OutPoint) : Option BdkOutPoint :=
  match txidFromStr x.txid with
  | some t => some ⟨t, x.vout⟩
  | none => none

/-- Opaque error type of the backend. -/
inductive BdkError
  | generic (msg : String)
deriving DecidableEq, Repr

/-- FFI address wrapper, holding a parsed backend address. -/
structure Address where
  address : BdkAddress
deriving DecidableEq, Repr

/-- FFI constructor `Address::new`: parse the given address string with
`BdkAddress::from_str`, wrap a success in the `Address` struct and map
a parse failure to the typed error `BdkError::Generic` carrying the
parser's message.  The string parser itself lives in the `bitcoin`
dependency, outside `src/`, and is passed as a parameter; the wrapper
never panics whatever the parser returns. -/
def Address.new (fromStr : String → Except String BdkAddress)
    (address : String) : Except BdkError Address :=
  match fromStr address with
  | Except.ok a => Except.ok ⟨a⟩
  | Except.error e => Except.error (BdkError.generic e)

/-- Backend-owned output as reported by `bdk`. -/
structure BdkLocalUtxo where
  outpoint : BdkOutPoint
  txout : TxOut
  keychain : KeychainKind
  is_spent : Bool
deriving DecidableEq, Repr

/-- FFI transaction output: value plus the materialized address (the
source stores the address as a string; see `BdkAddress`). -/
structure FfiTxOut where
  value : Nat
  address : BdkAddress
deriving DecidableEq, Repr

/-- FFI owned output. -/
structure LocalUtxo where
  outpoint : OutPoint
  txout : FfiTxOut
  keychain : KeychainKind
  is_spent : Bool
deriving DecidableEq, Repr

/-- Conversion `LocalUtxo::from_utxo`: the source calls
`BdkAddress::from_script(..).unwrap()`, so a script with no standard
address form makes the conversion panic; `none` models that panic. -/
def LocalUtxo.from_utxo (x : BdkLocalUtxo) (network : Network) : Option LocalUtxo :=
  match addressFromScript x.txout.script_pubkey network with
  | some a =>
    some
      { outpoint := { txid := txidToString x.outpoint.txid, vout := x.outpoint.vout }
        txout := { value := x.txout.value, address := a }
        keychain := x.keychain
        is_spent := x.is_spent }
  | none => none

/-- Backend balance, four classified amounts in satoshis. -/
structure BdkBalance where
  immature : Nat
  trusted_pending : Nat
  untrusted_pending : Nat
  confirmed : Nat
deriving DecidableEq, Repr

/-- Modelled from the spec: `BdkBalance::get_spendable` is the sum of
the trusted pending and confirmed amounts. -/
def BdkBalance.get_spendable (b : BdkBalance) : Nat :=
  b.confirmed + b.trusted_pending

/-- Modelled from the spec: `BdkBalance::get_total` is the sum of all
four classified amounts. -/
def BdkBalance.get_total (b : BdkBalance) : Nat :=
  BdkBalance.get_spendable b + b.untrusted_pending + b.immature

/-- FFI balance with the two derived fields materialized. -/
structure Balance where
  immature : Nat
  trusted_pending : Nat
  untrusted_pending : Nat
  confirmed : Nat
  spendable : Nat
  total : Nat
deriving DecidableEq, Repr

/-- Conversion `From<BdkBalance> for Balance`: copies the four
classified amounts and materializes the two derived fields. -/
def balanceFromBdk (b : BdkBalance) : Balance :=
  { immature := b.immature
    trusted_pending := b.trusted_pending
    untrusted_pending := b.untrusted_pending
    confirmed := b.confirmed
    spendable := BdkBalance.get_spendable b
    total := BdkBalance.get_total b }

/-- Block inclusion data of a confirmed transaction. -/
structure BlockTime where
  height : Nat
  timestamp : Nat
deriving DecidableEq, Repr

/-- Backend transaction details as reported by `bdk`. -/
structure BdkTransactionDetails where
  transaction : Option Transaction
  txid : List Nat
  received : Nat
  sent : Nat
  fee : Option Nat
  confirmation_time : Option BlockTime
deriving DecidableEq, Repr

/-- FFI transaction details. -/
structure TransactionDetails where
  txid : String
  received : Nat
  sent : Nat
  fee : Option Nat
  confirmation_time : Option BlockTime
deriving DecidableEq, Repr

/-- Conversion `From<&bdk::TransactionDetails> for TransactionDetails`:
copies fee, received, sent and confirmation time, and renders the txid. -/
def transactionDetailsFromBdk (x : BdkTransactionDetails) : TransactionDetails :=
  { fee := x.fee
    txid := txidToString x.txid
    received := x.received
    sent := x.sent
    confirmation_time := x.confirmation_time }

/-- One progress event forwarded by the sync progress bridge.  The
progress value models the 32-bit float passed through verbatim (no
arithmetic is performed on it). -/
structure ProgressUpdate where
  progress : Nat
  message : Option String
deriving DecidableEq, Repr

/-- Bridge method `impl BdkProgress for ProgressHolder :: update`: the
held observer is called once with the event (modelled by appending the
event to the observer's call log) and `Ok(())` is returned. -/
def ProgressHolder.update (log : List ProgressUpdate) (progress : Nat)
    (message : Option String) : List ProgressUpdate × Except BdkError Unit :=
  (log ++ [⟨progress, message⟩], Except.ok ())

/-- Drive the bridge over a whole sequence of backend events, returning
the observer's final call log and whether every call returned `Ok`. -/
def runProgress : List ProgressUpdate → List ProgressUpdate → List ProgressUpdate × Bool
  | [], log => (log, true)
  | e :: rest, log =>
    let s := ProgressHolder.update log e.progress e.message
    let t := runProgress rest s.1
    (t.1, (match s.2 with | Except.ok _ => true | Except.error _ => false) && t.2)

/-- The address index selection strategy, as declared in the FFI layer. -/
inductive AddressIndex
  | New
  | LastUnused
  | Peek (index : Nat)
  | Reset (index : Nat)
deriving DecidableEq, Repr

/-- The backend's address index selection strategy. -/
inductive BdkAddressIndex
  | New
  | LastUnused
  | Peek (index : Nat)
  | Reset (index : Nat)
deriving DecidableEq, Repr

/-- Conversion `From<AddressIndex> for BdkAddressIndex`. -/
def addressIndexToBdk : AddressIndex → BdkAddressIndex
  | AddressIndex.New => BdkAddressIndex.New
  | AddressIndex.LastUnused => BdkAddressIndex.LastUnused
  | AddressIndex.Peek index => BdkAddressIndex.Peek index
  | AddressIndex.Reset index => BdkAddressIndex.Reset index

/-- A derived address and the index it was found at. -/
structure AddressInfo where
  index : Nat
  address : String
deriving DecidableEq, Repr

/-- Modelled from the spec: the address-index cursor of one descriptor
keychain (the state machine lives in the wallet module, outside `src/`). -/
structure AddressIndexState where
  current_index : Nat
deriving DecidableEq, Repr

/-- Modelled from the spec: `next_address(strategy)`.  `New` increments
the cursor and derives at the new index; `LastUnused` returns the
current index if unused, else behaves as `New`; `Peek` derives at an
arbitrary index without touching the cursor; `Reset` forces the cursor.
`derive` is the external descriptor collaborator and `isUsed` the
backend-scan usage oracle. -/
def nextAddress (derive : Nat → String) (isUsed : Nat → Bool) :
    AddressIndex → AddressIndexState → AddressInfo × AddressIndexState
  | AddressIndex.New, s =>
    (⟨s.current_index + 1, derive (s.current_index + 1)⟩, ⟨s.current_index + 1⟩)
  | AddressIndex.LastUnused, s =>
    if isUsed s.current_index then
      (⟨s.current_index + 1, derive (s.current_index + 1)⟩, ⟨s.current_index + 1⟩)
    else
      (⟨s.current_index, derive s.current_index⟩, s)
  | AddressIndex.Peek index, s => (⟨index, derive index⟩, s)
  | AddressIndex.Reset index, _ => (⟨index, derive index⟩, ⟨index⟩)

/-- Repeated `New` calls: the result of the n-th successive `New`
(counting from zero) starting from a given state. -/
def newChain (derive : Nat → String) (isUsed : Nat → Bool)
    (s : AddressIndexState) : Nat → AddressInfo × AddressIndexState
  | 0 => nextAddress derive isUsed AddressIndex.New s
  | n + 1 => nextAddress derive isUsed AddressIndex.New (newChain derive isUsed s n).2

/-- Demonstration transaction bytes: the segwit serialization of a
transaction with no inputs and no outputs, version 1, lock time 0. -/
def demoBytes : List Nat := [1, 0, 0, 0, 0, 1, 0, 0, 0, 0, 0, 0]

/-- The transaction the demonstration bytes decode to. -/
def demoTx : Transaction := ⟨1, [], [], 0⟩

/-- Demonstration legacy transaction: one input, one pay-to-pubkey-hash
output, no witness data. -/
def demoTx2 : Transaction :=
  ⟨2,
    [⟨⟨List.replicate 32 7, 1⟩, [81], 4294967295, []⟩],
    [⟨50000, 118 :: 169 :: 20 :: (List.replicate 20 9 ++ [136, 172])⟩],
    0⟩

/-- Serialized form of the demonstration legacy transaction. -/
def demoBytes2 : List Nat := txEnc demoTx2

/-- A trivial derivation collaborator for witnesses. -/
def derive0 : Nat → String := fun _ => ""

/-- A trivial usage oracle for witnesses. -/
def isUsed0 : Nat → Bool := fun _ => false

/-- Demonstration backend UTXO paying an OP_RETURN (non-address) script. -/
def demoOpReturnUtxo : BdkLocalUtxo :=
  ⟨⟨List.replicate 32 5, 0⟩, ⟨1000, [106]⟩, KeychainKind.external, false⟩

/-- Demonstration backend UTXO paying a standard pay-to-pubkey-hash script. -/
def demoP2pkhUtxo : BdkLocalUtxo :=
  ⟨⟨List.replicate 32 5, 0⟩,
    ⟨50000, 118 :: 169 :: 20 :: (List.replicate 20 9 ++ [136, 172])⟩,
    KeychainKind.external, false⟩

/-- Demonstration txid display string (64 hex characters). -/
def demoTxidStr : String :=
  "0000000000000000000000000000000000000000000000000000000000000000"

/-! ### Lemmas about the serialization primitives -/

theorem Bytes.append_left {a b : List Nat} (h : Bytes (a ++ b)) : Bytes a :=
  fun x hx => h x (List.mem_append_left b hx)

theorem Bytes.append_right {a b : List Nat} (h : Bytes (a ++ b)) : Bytes b :=
  fun x hx => h x (List.mem_append_right a hx)

theorem leBytes_length (k v : Nat) : (leBytes k v).length = k := by
  induction k generalizing v with
  | zero => rfl
  | succ k ih => simp [leBytes, ih]

theorem leBytes_leVal : ∀ bs : List Nat, Bytes bs → leBytes bs.length (leVal bs) = bs := by
  intro bs
  induction bs with
  | nil => intro _; rfl
  | cons x r ih =>
    intro h
    have hx : x < 256 := h x (by simp)
    have hr : Bytes r := fun y hy => h y (by simp [hy])
    show leBytes (r.length + 1) (x + 256 * leVal r) = x :: r
    simp only [leBytes]
    have h1 : (x + 256 * leVal r) % 256 = x := by omega
    have h2 : (x + 256 * leVal r) / 256 = leVal r := by omega
    rw [h1, h2, ih hr]

theorem leVal_lt : ∀ bs : List Nat, Bytes bs → leVal bs < 256 ^ bs.length := by
  intro bs
  induction bs with
  | nil => intro _; simp [leVal]
  | cons x r ih =>
    intro h
    have hx : x < 256 := h x (by simp)
    have hr := ih (fun y hy => h y (by simp [hy]))
    have : leVal (x :: r) = x + 256 * leVal r := rfl
    rw [this, List.length_cons, pow_succ]
    calc x + 256 * leVal r < 256 * (leVal r + 1) := by omega
    _ ≤ 256 * 256 ^ r.length := by
        have : leVal r + 1 ≤ 256 ^ r.length := hr
        exact Nat.mul_le_mul_left 256 this
    _ = 256 ^ r.length * 256 := by ring

theorem readBytes_eq {k : Nat} {b v r : List Nat} (h : readBytes k b = some (v, r)) :
    v ++ r = b ∧ v.length = k := by
  unfold readBytes at h
  split at h
  · injection h with h1
    injection h1 with hv hr
    subst hv; subst hr
    refine ⟨List.take_append_drop k b, ?_⟩
    simp [List.length_take]
    omega
  · cases h

theorem readLE_exact {k : Nat} {b : List Nat} {n : Nat} {r : List Nat}
    (hB : Bytes b) (h : readLE k b = some (n, r)) :
    leBytes k n ++ r = b ∧ n < 256 ^ k := by
  cases hrb : readBytes k b with
  | none => simp [readLE, hrb] at h
  | some vr =>
    obtain ⟨v, r2⟩ := vr
    simp only [readLE, hrb] at h
    injection h with h1
    injection h1 with hn hr
    subst hn; subst hr
    obtain ⟨hvr, hlen⟩ := readBytes_eq hrb
    have hBv : Bytes v := Bytes.append_left (hvr ▸ hB)
    constructor
    · rw [← hlen, leBytes_leVal v hBv, hvr]
    · rw [← hlen]; exact leVal_lt v hBv

theorem readVarInt_exact {b : List Nat} {n : Nat} {r : List Nat}
    (hB : Bytes b) (h : readVarInt b = some (n, r)) :
    varIntEnc n ++ r = b := by
  match b with
  | [] => simp [readVarInt] at h
  | x :: t =>
    have hx : x < 256 := hB x (by simp)
    have hBt : Bytes t := fun y hy => hB y (by simp [hy])
    simp only [readVarInt] at h
    split at h
    · -- single-byte form
      injection h with h1
      injection h1 with hn hr
      subst hn; subst hr
      simp only [varIntEnc]
      rw [if_pos (by assumption)]
      rfl
    · split at h
      · -- 0xFD form
        rename_i hlt hx253
        cases hle : readLE 2 t with
        | none => simp [hle] at h
        | some mr =>
          obtain ⟨m, r2⟩ := mr
          simp only [hle] at h
          split at h
          · cases h
          · rename_i hmin
            injection h with h1
            injection h1 with hn hr
            rw [← hn, ← hr]
            obtain ⟨ht, hm⟩ := readLE_exact hBt hle
            have hub : m < 65536 := by simpa using hm
            simp only [varIntEnc]
            rw [if_neg (by omega), if_pos hub]
            rw [hx253, ← ht]
            rfl
      · split at h
        · -- 0xFE form
          rename_i hlt hne253 hx254
          cases hle : readLE 4 t with
          | none => simp [hle] at h
          | some mr =>
            obtain ⟨m, r2⟩ := mr
            simp only [hle] at h
            split at h
            · cases h
            · rename_i hmin
              injection h with h1
              injection h1 with hn hr
              rw [← hn, ← hr]
              obtain ⟨ht, hm⟩ := readLE_exact hBt hle
              have hub : m < 4294967296 := by simpa using hm
              simp only [varIntEnc]
              rw [if_neg (by omega), if_neg (by omega), if_pos hub]
              rw [hx254, ← ht]
              rfl
        · split at h
          · -- 0xFF form
            rename_i hlt hne253 hne254 hx255
            cases hle : readLE 8 t with
            | none => simp [hle] at h
            | some mr =>
              obtain ⟨m, r2⟩ := mr
              simp only [hle] at h
              split at h
              · cases h
              · rename_i hmin
                injection h with h1
                injection h1 with hn hr
                rw [← hn, ← hr]
                obtain ⟨ht, hm⟩ := readLE_exact hBt hle
                simp only [varIntEnc]
                rw [if_neg (by omega), if_neg (by omega), if_neg (by omega)]
                rw [hx255, ← ht]
                rfl
          · cases h

theorem readVarBytes_exact {b v r : List Nat}
    (hB : Bytes b) (h : readVarBytes b = some (v, r)) :
    varBytesEnc v ++ r = b := by
  cases hvi : readVarInt b with
  | none => simp [readVarBytes, hvi] at h
  | some nr =>
    obtain ⟨n, r1⟩ := nr
    simp only [readVarBytes, hvi] at h
    obtain ⟨hvr, hlen⟩ := readBytes_eq h
    have h1 := readVarInt_exact hB hvi
    rw [varBytesEnc, hlen, List.append_assoc, hvr, h1]

theorem readTxOutPoint_exact {b : List Nat} {o : TxOutPoint} {r : List Nat}
    (hB : Bytes b) (h : readTxOutPoint b = some (o, r)) :
    txOutPointEnc o ++ r = b := by
  cases ht : readBytes 32 b with
  | none => simp [readTxOutPoint, ht] at h
  | some tr =>
    obtain ⟨t, r1⟩ := tr
    obtain ⟨hb1, hlen⟩ := readBytes_eq ht
    have hB1 : Bytes r1 := Bytes.append_right (hb1 ▸ hB)
    cases hv : readLE 4 r1 with
    | none => simp [readTxOutPoint, ht, hv] at h
    | some vr =>
      obtain ⟨v, r2⟩ := vr
      simp only [readTxOutPoint, ht, hv] at h
      injection h with h1
      injection h1 with ho hr
      rw [← ho, ← hr]
      obtain ⟨hb2, -⟩ := readLE_exact hB1 hv
      rw [txOutPointEnc, List.append_assoc, hb2, hb1]

theorem readTxIn_exact {b : List Nat} {i : TxIn} {r : List Nat}
    (hB : Bytes b) (h : readTxIn b = some (i, r)) :
    txInEnc i ++ r = b ∧ i.witness = [] := by
  cases ho : readTxOutPoint b with
  | none => simp [readTxIn, ho] at h
  | some or1 =>
    obtain ⟨o, r1⟩ := or1
    have hb1 := readTxOutPoint_exact hB ho
    have hB1 : Bytes r1 := Bytes.append_right (hb1 ▸ hB)
    cases hs : readVarBytes r1 with
    | none => simp [readTxIn, ho, hs] at h
    | some sr =>
      obtain ⟨s, r2⟩ := sr
      have hb2 := readVarBytes_exact hB1 hs
      have hB2 : Bytes r2 := Bytes.append_right (hb2 ▸ hB1)
      cases hq : readLE 4 r2 with
      | none => simp [readTxIn, ho, hs, hq] at h
      | some qr =>
        obtain ⟨q, r3⟩ := qr
        simp only [readTxIn, ho, hs, hq] at h
        injection h with h1
        injection h1 with hi hr
        rw [← hi, ← hr]
        obtain ⟨hb3, -⟩ := readLE_exact hB2 hq
        refine ⟨?_, rfl⟩
        rw [txInEnc]
        rw [List.append_assoc, List.append_assoc, hb3, hb2, hb1]

theorem readTxOut_exact {b : List Nat} {o : TxOut} {r : List Nat}
    (hB : Bytes b) (h : readTxOut b = some (o, r)) :
    txOutEnc o ++ r = b := by
  cases hv : readLE 8 b with
  | none => simp [readTxOut, hv] at h
  | some vr =>
    obtain ⟨v, r1⟩ := vr
    obtain ⟨hb1, -⟩ := readLE_exact hB hv
    have hB1 : Bytes r1 := Bytes.append_right (hb1 ▸ hB)
    cases hs : readVarBytes r1 with
    | none => simp [readTxOut, hv, hs] at h
    | some sr =>
      obtain ⟨s, r2⟩ := sr
      simp only [readTxOut, hv, hs] at h
      injection h with h1
      injection h1 with ho hr
      rw [← ho, ← hr]
      have hb2 := readVarBytes_exact hB1 hs
      rw [txOutEnc, List.append_assoc, hb2, hb1]

theorem readMany_exact {α : Type} {f : List Nat → Option (α × List Nat)} {g : α → List Nat}
    (hfg : ∀ {b v r}, Bytes b → f b = some (v, r) → g v ++ r = b) :
    ∀ (k : Nat) (b : List Nat), Bytes b → ∀ (vs : List α) (r : List Nat),
      readMany f k b = some (vs, r) →
      (vs.map g).flatten ++ r = b ∧ vs.length = k := by
  intro k
  induction k with
  | zero =>
    intro b hB vs r h
    simp only [readMany] at h
    injection h with h1
    injection h1 with hvs hr
    rw [← hvs, ← hr]
    simp
  | succ k ih =>
    intro b hB vs r h
    cases hf : f b with
    | none => simp [readMany, hf] at h
    | some vr1 =>
      obtain ⟨v, r1⟩ := vr1
      have hb1 := hfg hB hf
      have hB1 : Bytes r1 := Bytes.append_right (hb1 ▸ hB)
      cases hm : readMany f k r1 with
      | none => simp [readMany, hf, hm] at h
      | some vsr =>
        obtain ⟨vs1, r2⟩ := vsr
        simp only [readMany, hf, hm] at h
        injection h with h1
        injection h1 with hvs hr
        rw [← hvs, ← hr]
        obtain ⟨hb2, hlen⟩ := ih r1 hB1 vs1 r2 hm
        refine ⟨?_, by simp [hlen]⟩
        rw [List.map_cons, List.flatten_cons, List.append_assoc, hb2, hb1]

theorem readMany_all {α : Type} {f : List Nat → Option (α × List Nat)} {P : α → Prop}
    (hf : ∀ {b v r}, f b = some (v, r) → P v) :
    ∀ (k : Nat) (b : List Nat) (vs : List α) (r : List Nat),
      readMany f k b = some (vs, r) → ∀ v ∈ vs, P v := by
  intro k
  induction k with
  | zero =>
    intro b vs r h
    simp only [readMany] at h
    injection h with h1
    injection h1 with hvs hr
    rw [← hvs]
    simp
  | succ k ih =>
    intro b vs r h
    cases hf1 : f b with
    | none => simp [readMany, hf1] at h
    | some vr1 =>
      obtain ⟨v, r1⟩ := vr1
      cases hm : readMany f k r1 with
      | none => simp [readMany, hf1, hm] at h
      | some vsr =>
        obtain ⟨vs1, r2⟩ := vsr
        simp only [readMany, hf1, hm] at h
        injection h with h1
        injection h1 with hvs hr
        rw [← hvs]
        intro w hw
        rcases List.mem_cons.mp hw with hw | hw
        · exact hw ▸ hf hf1
        · exact ih r1 vs1 r2 hm w hw

theorem readVec_exact {α : Type} {f : List Nat → Option (α × List Nat)} {g : α → List Nat}
    (hfg : ∀ {b v r}, Bytes b → f b = some (v, r) → g v ++ r = b)
    {b : List Nat} {vs : List α} {r : List Nat}
    (hB : Bytes b) (h : readVec f b = some (vs, r)) :
    vecEnc g vs ++ r = b := by
  cases hvi : readVarInt b with
  | none => simp [readVec, hvi] at h
  | some nr =>
    obtain ⟨n, r1⟩ := nr
    simp only [readVec, hvi] at h
    have h1 := readVarInt_exact hB hvi
    have hB1 : Bytes r1 := Bytes.append_right (h1 ▸ hB)
    obtain ⟨h2, hlen⟩ := readMany_exact hfg n r1 hB1 vs r h
    rw [vecEnc, hlen, List.append_assoc, h2, h1]

theorem readVec_all {α : Type} {f : List Nat → Option (α × List Nat)} {P : α → Prop}
    (hf : ∀ {b v r}, f b = some (v, r) → P v)
    {b : List Nat} {vs : List α} {r : List Nat}
    (h : readVec f b = some (vs, r)) : ∀ v ∈ vs, P v := by
  cases hvi : readVarInt b with
  | none => simp [readVec, hvi] at h
  | some nr =>
    obtain ⟨n, r1⟩ := nr
    simp only [readVec, hvi] at h
    exact readMany_all hf n r1 vs r h

theorem readWitsFor_exact :
    ∀ (is : List TxIn) (b : List Nat), Bytes b →
    ∀ (is2 : List TxIn) (r : List Nat), readWitsFor is b = some (is2, r) →
      (is2.map (fun i => witnessEnc i.witness)).flatten ++ r = b ∧
      is2.map txInEnc = is.map txInEnc := by
  intro is
  induction is with
  | nil =>
    intro b hB is2 r h
    simp only [readWitsFor] at h
    injection h with h1
    injection h1 with hi hr
    rw [← hi, ← hr]
    simp
  | cons i is ih =>
    intro b hB is2 r h
    cases hw : readWitness b with
    | none => simp [readWitsFor, hw] at h
    | some wr =>
      obtain ⟨w, r1⟩ := wr
      have hb1 : witnessEnc w ++ r1 = b :=
        readVec_exact (fun hB h => readVarBytes_exact hB h) hB hw
      have hB1 : Bytes r1 := Bytes.append_right (hb1 ▸ hB)
      cases hrest : readWitsFor is r1 with
      | none => simp [readWitsFor, hw, hrest] at h
      | some isr =>
        obtain ⟨is3, r2⟩ := isr
        simp only [readWitsFor, hw, hrest] at h
        injection h with h1
        injection h1 with hi hr
        rw [← hi, ← hr]
        obtain ⟨hb2, hmap⟩ := ih r1 hB1 is3 r2 hrest
        constructor
        · rw [List.map_cons, List.flatten_cons, List.append_assoc, hb2]
          exact hb1
        · rw [List.map_cons, List.map_cons, hmap]
          rfl

theorem readTxIn_witness {b : List Nat} {i : TxIn} {r : List Nat}
    (h : readTxIn b = some (i, r)) : i.witness = [] := by
  cases ho : readTxOutPoint b with
  | none => simp [readTxIn, ho] at h
  | some or1 =>
    obtain ⟨o, r1⟩ := or1
    cases hs : readVarBytes r1 with
    | none => simp [readTxIn, ho, hs] at h
    | some sr =>
      obtain ⟨s, r2⟩ := sr
      cases hq : readLE 4 r2 with
      | none => simp [readTxIn, ho, hs, hq] at h
      | some qr =>
        obtain ⟨q, r3⟩ := qr
        simp only [readTxIn, ho, hs, hq] at h
        injection h with h1
        injection h1 with hi hr
        rw [← hi]

theorem decodeTx_exact {b : List Nat} {tx : Transaction} {rest : List Nat}
    (hB : Bytes b) (h : decodeTx b = some (tx, rest)) :
    txEnc tx ++ rest = b := by
  cases hv : readLE 4 b with
  | none => simp [decodeTx, hv] at h
  | some vr =>
  obtain ⟨version, r1⟩ := vr
  obtain ⟨hb1, -⟩ := readLE_exact hB hv
  have hB1 : Bytes r1 := Bytes.append_right (hb1 ▸ hB)
  cases hins : readVec readTxIn r1 with
  | none => simp [decodeTx, hv, hins] at h
  | some insr =>
  obtain ⟨ins, r2⟩ := insr
  have hb2 : vecEnc txInEnc ins ++ r2 = r1 :=
    readVec_exact (fun hBx hx => (readTxIn_exact hBx hx).1) hB1 hins
  have hB2 : Bytes r2 := Bytes.append_right (hb2 ▸ hB1)
  have hwit : ∀ i ∈ ins, i.witness = [] :=
    readVec_all (fun hx => readTxIn_witness hx) hins
  cases ins with
  | nil =>
    -- segwit path: the first input vector was empty
    rw [show vecEnc txInEnc ([] : List TxIn) = [0] from rfl] at hb2
    cases r2 with
    | nil => simp [decodeTx, hv, hins] at h
    | cons flag r3 =>
    have hB3 : Bytes r3 := fun y hy => hB2 y (List.mem_cons_of_mem flag hy)
    simp only [decodeTx, hv, hins, List.isEmpty_nil, if_true] at h
    split at h
    case isFalse => cases h
    case isTrue hflag =>
    cases hins2 : readVec readTxIn r3 with
    | none => simp [hins2] at h
    | some insr2 =>
    obtain ⟨ins2, r4⟩ := insr2
    simp only [hins2] at h
    have hb3 : vecEnc txInEnc ins2 ++ r4 = r3 :=
      readVec_exact (fun hBx hx => (readTxIn_exact hBx hx).1) hB3 hins2
    have hB4 : Bytes r4 := Bytes.append_right (hb3 ▸ hB3)
    cases houts : readVec readTxOut r4 with
    | none => simp [houts] at h
    | some outsr =>
    obtain ⟨outs, r5⟩ := outsr
    simp only [houts] at h
    have hb4 : vecEnc txOutEnc outs ++ r5 = r4 :=
      readVec_exact (fun hBx hx => readTxOut_exact hBx hx) hB4 houts
    have hB5 : Bytes r5 := Bytes.append_right (hb4 ▸ hB4)
    cases hwits : readWitsFor ins2 r5 with
    | none => simp [hwits] at h
    | some isr =>
    obtain ⟨is3, r6⟩ := isr
    simp only [hwits] at h
    obtain ⟨hb5, hmap⟩ := readWitsFor_exact ins2 r5 hB5 is3 r6 hwits
    have hB6 : Bytes r6 := Bytes.append_right (hb5 ▸ hB5)
    split at h
    case isTrue => cases h
    case isFalse hguard =>
    cases hlt : readLE 4 r6 with
    | none => simp [hlt] at h
    | some ltr =>
    obtain ⟨lt, r7⟩ := ltr
    simp only [hlt] at h
    obtain ⟨hb6, -⟩ := readLE_exact hB6 hlt
    injection h with h1
    injection h1 with htx hr
    rw [← htx, ← hr]
    -- the encoder picks the witness layout
    have hc : (is3.isEmpty || is3.any fun i => !i.witness.isEmpty) = true := by
      cases hce : is3.isEmpty with
      | true => simp
      | false =>
        simp only [hce, Bool.false_or]
        rw [List.any_eq_true]
        by_contra hcon
        push_neg at hcon
        apply hguard
        rw [Bool.and_eq_true]
        refine ⟨by simp [hce], ?_⟩
        rw [List.all_eq_true]
        intro i hi
        have := hcon i hi
        simpa using this
    have hlen3 : is3.length = ins2.length := by
      have := congrArg List.length hmap
      simpa using this
    have hveq : vecEnc txInEnc is3 = vecEnc txInEnc ins2 := by
      rw [vecEnc, vecEnc, hmap, hlen3]
    show txEnc ⟨version, is3, outs, lt⟩ ++ r7 = b
    rw [txEnc]
    simp only []
    rw [if_pos hc, hveq]
    rw [← hb1, ← hb2, hflag, ← hb3, ← hb4, ← hb5, ← hb6]
    simp [List.append_assoc]
  | cons i0 ins0 =>
    -- legacy path
    simp only [decodeTx, hv, hins, List.isEmpty_cons, Bool.false_eq_true, if_false] at h
    cases houts : readVec readTxOut r2 with
    | none => simp [houts] at h
    | some outsr =>
    obtain ⟨outs, r3⟩ := outsr
    simp only [houts] at h
    have hb3 : vecEnc txOutEnc outs ++ r3 = r2 :=
      readVec_exact (fun hBx hx => readTxOut_exact hBx hx) hB2 houts
    have hB3 : Bytes r3 := Bytes.append_right (hb3 ▸ hB2)
    cases hlt : readLE 4 r3 with
    | none => simp [hlt] at h
    | some ltr =>
    obtain ⟨lt, r4⟩ := ltr
    simp only [hlt] at h
    obtain ⟨hb4, -⟩ := readLE_exact hB3 hlt
    injection h with h1
    injection h1 with htx hr
    rw [← htx, ← hr]
    have hc : ((i0 :: ins0).isEmpty || (i0 :: ins0).any fun i => !i.witness.isEmpty) = false := by
      simp only [List.isEmpty_cons, Bool.false_or]
      rw [List.any_eq_false]
      intro i hi
      simp [hwit i hi]
    show txEnc ⟨version, i0 :: ins0, outs, lt⟩ ++ r4 = b
    rw [txEnc]
    simp only []
    rw [if_neg (by rw [hc]; exact Bool.false_ne_true)]
    rw [← hb1, ← hb2, ← hb3, ← hb4]
    simp [List.append_assoc]

/-! ### Auxiliary lemmas for the remaining claims -/

theorem runProgress_eq : ∀ (events log : List ProgressUpdate),
    runProgress events log = (log ++ events, true) := by
  intro events
  induction events with
  | nil => intro log; simp [runProgress]
  | cons e rest ih =>
    intro log
    simp only [runProgress, ProgressHolder.update, ih]
    simp

theorem newChain_state (derive : Nat → String) (isUsed : Nat → Bool)
    (s : AddressIndexState) : ∀ n : Nat,
    (newChain derive isUsed s n).2 = ⟨s.current_index + n + 1⟩ ∧
    (newChain derive isUsed s n).1.index = s.current_index + n + 1 := by
  intro n
  induction n with
  | zero => exact ⟨rfl, rfl⟩
  | succ n ih =>
    obtain ⟨h2, h1⟩ := ih
    constructor
    · show (nextAddress derive isUsed AddressIndex.New (newChain derive isUsed s n).2).2 =
        ⟨s.current_index + (n + 1) + 1⟩
      rw [h2]
      rfl
    · show (nextAddress derive isUsed AddressIndex.New (newChain derive isUsed s n).2).1.index =
        s.current_index + (n + 1) + 1
      rw [h2]
      rfl

/-! ### Claim theorems -/

/-- C1.  For all valid consensus-encoded transaction bytes `b` (bytes
fully consumed by the consensus decoder), `Transaction::new` succeeds
and `Transaction::serialize` of the result yields exactly `b`,
byte-for-byte. -/
theorem claim1_codec_roundtrip {b : List Nat} {tx : Transaction}
    (hB : Bytes b) (h : decodeTx b = some (tx, [])) :
    Transaction.new b = some tx ∧ Transaction.serialize tx = b := by
  constructor
  · simp [Transaction.new, h]
  · have h1 := decodeTx_exact hB h
    simpa [Transaction.serialize] using h1

/-- Witness for C1 at a concrete serialized transaction. -/
theorem claim1_codec_roundtrip_witness :
    Transaction.new demoBytes = some demoTx ∧ Transaction.serialize demoTx = demoBytes :=
  claim1_codec_roundtrip (by decide) (by decide)

/-- C2.  The balance conversion materializes
`spendable = trusted_pending + confirmed` and
`total = immature + trusted_pending + untrusted_pending + confirmed`
exactly, and consequently `total ≥ spendable ≥ confirmed ≥ 0`. -/
theorem claim2_balance_conservation (b : BdkBalance) :
    (balanceFromBdk b).spendable = b.trusted_pending + b.confirmed ∧
    (balanceFromBdk b).total =
      b.immature + b.trusted_pending + b.untrusted_pending + b.confirmed ∧
    (balanceFromBdk b).spendable ≤ (balanceFromBdk b).total ∧
    (balanceFromBdk b).confirmed ≤ (balanceFromBdk b).spendable := by
  simp only [balanceFromBdk, BdkBalance.get_total, BdkBalance.get_spendable]
  omega

/-- C3 counterexample.  `Transaction::new` does not reject trailing
data: appending a garbage byte to a complete encoding still decodes
successfully, refuting the claim that such inputs fail with a codec
error. -/
theorem claim3_counterexample_trailing_accepted :
    Transaction.new (demoBytes ++ [0]) = some demoTx := by decide

/-- C3 amended.  `Transaction::new` fails on truncated or malformed
bytes and never partially decodes: whenever decoding succeeds, the
bytes consumed are exactly the consensus encoding of the returned
transaction.  Trailing bytes after a complete encoding are ignored, not
rejected. -/
theorem claim3_amended_exact_consumption {b : List Nat} {tx : Transaction}
    {rest : List Nat} (hB : Bytes b) (h : decodeTx b = some (tx, rest)) :
    Transaction.serialize tx ++ rest = b := by
  have h1 := decodeTx_exact hB h
  simpa [Transaction.serialize] using h1

/-- Witness for the amended C3 at a concrete input with one trailing
byte. -/
theorem claim3_amended_exact_consumption_witness :
    Transaction.serialize demoTx ++ [0] = demoBytes ++ [0] :=
  claim3_amended_exact_consumption (by decide) (by decide)

/-- C4 counterexample.  Materializing a wallet-owned output whose
script is not a standard address form does not record a failure marker
and retain the output: the conversion unwraps the address decoding and
panics (modelled by `none`), so no UTXO is produced at all. -/
theorem claim4_counterexample_nonstandard_script_panics :
    LocalUtxo.from_utxo demoOpReturnUtxo Network.bitcoin = none := by decide

/-- C4 amended.  When the script has a standard address form the UTXO
is materialized faithfully (outpoint, value, keychain and spent status
preserved); when it does not, the conversion panics on the unwrapped
address decoding instead of recording a failure marker. -/
theorem claim4_amended_standard_script_retained
    (x : BdkLocalUtxo) (network : Network) (a : BdkAddress)
    (h : addressFromScript x.txout.script_pubkey network = some a) :
    LocalUtxo.from_utxo x network =
      some
        { outpoint := { txid := txidToString x.outpoint.txid, vout := x.outpoint.vout }
          txout := { value := x.txout.value, address := a }
          keychain := x.keychain
          is_spent := x.is_spent } := by
  simp [LocalUtxo.from_utxo, h]

/-- Witness for the amended C4 at a concrete pay-to-pubkey-hash UTXO. -/
theorem claim4_amended_standard_script_retained_witness :
    LocalUtxo.from_utxo demoP2pkhUtxo Network.bitcoin =
      some
        { outpoint := { txid := txidToString (List.replicate 32 5), vout := 0 }
          txout :=
            { value := 50000
              address := ⟨Network.bitcoin, Payload.pubkeyHash (List.replicate 20 9)⟩ }
          keychain := KeychainKind.external
          is_spent := false } :=
  claim4_amended_standard_script_retained demoP2pkhUtxo Network.bitcoin
    ⟨Network.bitcoin, Payload.pubkeyHash (List.replicate 20 9)⟩ (by decide)

/-- C5 counterexample.  Converting an `OutPoint` whose txid string is
not 64 hex characters does not return a typed error: the conversion
unwraps `Txid::from_str` and panics (modelled by `none`). -/
theorem claim5_counterexample_outpoint_panics :
    outPointToBdk ⟨"xyz", 0⟩ = none := by decide

/-- C5 amended.  `Address::new` always completes with a value or the
typed error `BdkError::Generic` carrying the parser's message, whatever
the dependency's string parser returns; but the `OutPoint` conversion
panics when the txid string does not parse — it succeeds, preserving
the parsed txid and the vout, exactly when the txid string is a valid
64-character hex txid — and `LocalUtxo::from_utxo` likewise panics
exactly when the script has no standard address form. -/
theorem claim5_amended_outpoint_characterization (x : OutPoint) :
    (∀ (fromStr : String → Except String BdkAddress) (s : String),
      (∃ a, Address.new fromStr s = Except.ok a ∧ fromStr s = Except.ok a.address) ∨
      (∃ e, Address.new fromStr s = Except.error (BdkError.generic e) ∧
        fromStr s = Except.error e)) ∧
    (∀ t, txidFromStr x.txid = some t → outPointToBdk x = some ⟨t, x.vout⟩) ∧
    (txidFromStr x.txid = none → outPointToBdk x = none) ∧
    (∀ (y : BdkLocalUtxo) (network : Network),
      (LocalUtxo.from_utxo y network).isSome =
        (addressFromScript y.txout.script_pubkey network).isSome) := by
  refine ⟨?_, ?_, ?_, ?_⟩
  · intro fromStr s
    cases hf : fromStr s with
    | ok a =>
      left
      exact ⟨⟨a⟩, by simp [Address.new, hf], by simp [hf]⟩
    | error e =>
      right
      exact ⟨e, by simp [Address.new, hf], rfl⟩
  · intro t ht
    simp [outPointToBdk, ht]
  · intro ht
    simp [outPointToBdk, ht]
  · intro y network
    cases ha : addressFromScript y.txout.script_pubkey network <;>
      simp [LocalUtxo.from_utxo, ha]

/-- Witness for the amended C5: the outpoint conversion applied at a
concrete valid txid string. -/
theorem claim5_amended_outpoint_characterization_witness :
    outPointToBdk ⟨demoTxidStr, 7⟩ = some ⟨List.replicate 32 0, 7⟩ :=
  (claim5_amended_outpoint_characterization ⟨demoTxidStr, 7⟩).2.1
    (List.replicate 32 0) (by decide)

/-- C6.  The sync progress bridge forwards every backend event to the
registered observer exactly once, with the same progress value and
message, in event order, and every bridge call returns `Ok`; observer
behaviour is never propagated as a failure. -/
theorem claim6_progress_bridge :
    (∀ (log : List ProgressUpdate) (p : Nat) (m : Option String),
      ProgressHolder.update log p m = (log ++ [⟨p, m⟩], Except.ok ())) ∧
    (∀ events : List ProgressUpdate, runProgress events [] = (events, true)) := by
  constructor
  · intro log p m
    rfl
  · intro events
    simpa using runProgress_eq events []

/-- C7.  The transaction-details conversion preserves fee, received,
sent and confirmation time verbatim; in particular an absent fee
reaches the caller as `None` exactly when the backend reported it
absent. -/
theorem claim7_transaction_details_preserved (x : BdkTransactionDetails) :
    (transactionDetailsFromBdk x).fee = x.fee ∧
    (transactionDetailsFromBdk x).received = x.received ∧
    (transactionDetailsFromBdk x).sent = x.sent ∧
    (transactionDetailsFromBdk x).confirmation_time = x.confirmation_time ∧
    ((transactionDetailsFromBdk x).fee = none ↔ x.fee = none) := by
  simp [transactionDetailsFromBdk]

/-- C9.  Against a fixed keychain, `Peek` never mutates the cursor (so
interleaving a `Peek` between two `New` calls leaves the second `New`'s
result unchanged), and repeated `New` calls yield strictly increasing
indices: an index returned by `New` is never returned by `New` again. -/
theorem claim9_address_index_monotonicity (derive : Nat → String)
    (isUsed : Nat → Bool) (s : AddressIndexState) (i n m : Nat) (h : n < m) :
    (nextAddress derive isUsed (AddressIndex.Peek i) s).2 = s ∧
    nextAddress derive isUsed AddressIndex.New
        ((nextAddress derive isUsed (AddressIndex.Peek i) s).2) =
      nextAddress derive isUsed AddressIndex.New s ∧
    (newChain derive isUsed s n).1.index < (newChain derive isUsed s m).1.index := by
  refine ⟨rfl, rfl, ?_⟩
  have hn := (newChain_state derive isUsed s n).2
  have hm := (newChain_state derive isUsed s m).2
  omega

/-- Witness for C9 with a concrete keychain state and call sequence. -/
theorem claim9_address_index_monotonicity_witness :
    (nextAddress derive0 isUsed0 (AddressIndex.Peek 5) ⟨0⟩).2 = ⟨0⟩ ∧
    nextAddress derive0 isUsed0 AddressIndex.New
        ((nextAddress derive0 isUsed0 (AddressIndex.Peek 5) ⟨0⟩).2) =
      nextAddress derive0 isUsed0 AddressIndex.New ⟨0⟩ ∧
    (newChain derive0 isUsed0 ⟨0⟩ 0).1.index < (newChain derive0 isUsed0 ⟨0⟩ 1).1.index :=
  claim9_address_index_monotonicity derive0 isUsed0 ⟨0⟩ 5 0 1 (by decide)

/-- C10.  The strategy conversion maps each of the four variants to the
like-named backend variant, preserves the index payloads of `Peek` and
`Reset` exactly, and is injective: distinct strategies are never
collapsed. -/
theorem claim10_address_index_conversion :
    addressIndexToBdk AddressIndex.New = BdkAddressIndex.New ∧
    addressIndexToBdk AddressIndex.LastUnused = BdkAddressIndex.LastUnused ∧
    (∀ i, addressIndexToBdk (AddressIndex.Peek i) = BdkAddressIndex.Peek i) ∧
    (∀ i, addressIndexToBdk (AddressIndex.Reset i) = BdkAddressIndex.Reset i) ∧
    Function.Injective addressIndexToBdk := by
  refine ⟨rfl, rfl, fun i => rfl, fun i => rfl, ?_⟩
  intro x y hxy
  cases x <;> cases y <;> simp [addressIndexToBdk] at hxy ⊢ <;> exact hxy

theorem varIntEnc_length (n : Nat) : (varIntEnc n).length = varIntLen n := by
  rw [varIntEnc, varIntLen]
  split
  · rfl
  · split
    · simp [leBytes_length]
    · split
      · simp [leBytes_length]
      · simp [leBytes_length]

theorem varBytesEnc_length (v : List Nat) :
    (varBytesEnc v).length = varIntLen v.length + v.length := by
  simp [varBytesEnc, varIntEnc_length]

theorem txInEnc_length {i : TxIn} (h32 : i.previous_output.txid.length = 32) :
    (txInEnc i).length = txInBaseSize i := by
  simp [txInEnc, txOutPointEnc, txInBaseSize, varBytesEnc_length, leBytes_length, h32]
  omega

theorem txOutEnc_length (o : TxOut) : (txOutEnc o).length = txOutSize o := by
  simp [txOutEnc, txOutSize, varBytesEnc_length, leBytes_length]
  omega

theorem vecEnc_length {α : Type} (g : α → List Nat) (xs : List α) :
    (vecEnc g xs).length = varIntLen xs.length + (xs.map fun x => (g x).length).sum := by
  rw [vecEnc, List.length_append, varIntEnc_length, List.length_flatten, List.map_map]
  rfl

theorem witnessEnc_length (w : List (List Nat)) :
    (witnessEnc w).length = witnessSerLen w := by
  have hm : (w.map fun x => (varBytesEnc x).length) =
      w.map fun e => varIntLen e.length + e.length :=
    List.map_congr_left fun e _ => varBytesEnc_length e
  rw [witnessEnc, vecEnc_length, hm, witnessSerLen]

theorem baseSize_eq {tx : Transaction}
    (h32 : ∀ i ∈ tx.input, i.previous_output.txid.length = 32) :
    Transaction.baseSize tx =
      4 + varIntLen tx.input.length + (tx.input.map txInBaseSize).sum +
        varIntLen tx.output.length + (tx.output.map txOutSize).sum + 4 := by
  have hin : (tx.input.map fun x => (txInEnc x).length) = tx.input.map txInBaseSize :=
    List.map_congr_left fun i hi => txInEnc_length (h32 i hi)
  have hout : (tx.output.map fun x => (txOutEnc x).length) = tx.output.map txOutSize :=
    List.map_congr_left fun o _ => txOutEnc_length o
  rw [Transaction.baseSize, txEncLegacy]
  simp only [List.length_append, vecEnc_length, leBytes_length, hin, hout]
  omega

theorem totalSize_eq (tx : Transaction) :
    Transaction.totalSize tx =
      Transaction.baseSize tx +
        (if tx.input.isEmpty || tx.input.any fun i => !i.witness.isEmpty then
          2 + (tx.input.map fun i => witnessSerLen i.witness).sum
        else 0) := by
  rw [Transaction.totalSize, Transaction.baseSize, txEnc, txEncLegacy]
  split
  · have hcomp : (List.length ∘ fun i : TxIn => witnessEnc i.witness) =
        fun i : TxIn => witnessSerLen i.witness := by
      funext i
      exact witnessEnc_length i.witness
    simp only [List.length_append, List.length_flatten, List.map_map, hcomp,
      List.length_cons, List.length_nil]
    omega
  · simp

theorem weight_eq {tx : Transaction}
    (h32 : ∀ i ∈ tx.input, i.previous_output.txid.length = 32) :
    Transaction.weight tx = Transaction.totalSize tx + 3 * Transaction.baseSize tx := by
  rw [totalSize_eq tx, baseSize_eq h32, Transaction.weight]
  split
  · omega
  · omega

theorem nat_ceil_div4 (w : Nat) : (w + 3) / 4 = Nat.ceil ((w : ℚ) / 4) := by
  have h2 : (w : Nat) ≤ Nat.ceil ((w : ℚ) / 4) * 4 := by
    have hle : ((w : ℚ) / 4) ≤ (Nat.ceil ((w : ℚ) / 4) : ℚ) := Nat.le_ceil _
    rw [div_le_iff₀ (by norm_num : (0 : ℚ) < 4)] at hle
    exact_mod_cast hle
  have h1 : Nat.ceil ((w : ℚ) / 4) ≤ (w + 3) / 4 := by
    apply Nat.ceil_le.mpr
    rw [div_le_iff₀ (by norm_num : (0 : ℚ) < 4)]
    have h3 : (w : Nat) ≤ ((w + 3) / 4) * 4 := by omega
    exact_mod_cast h3
  omega

theorem readTxOutPoint_txid32 {b : List Nat} {o : TxOutPoint} {r : List Nat}
    (h : readTxOutPoint b = some (o, r)) : o.txid.length = 32 := by
  cases ht : readBytes 32 b with
  | none => simp [readTxOutPoint, ht] at h
  | some tr =>
    obtain ⟨t, r1⟩ := tr
    cases hv : readLE 4 r1 with
    | none => simp [readTxOutPoint, ht, hv] at h
    | some vr =>
      obtain ⟨v, r2⟩ := vr
      simp only [readTxOutPoint, ht, hv] at h
      injection h with h1
      injection h1 with ho hr
      rw [← ho]
      exact (readBytes_eq ht).2

theorem readTxIn_txid32 {b : List Nat} {i : TxIn} {r : List Nat}
    (h : readTxIn b = some (i, r)) : i.previous_output.txid.length = 32 := by
  cases ho : readTxOutPoint b with
  | none => simp [readTxIn, ho] at h
  | some or1 =>
    obtain ⟨o, r1⟩ := or1
    cases hs : readVarBytes r1 with
    | none => simp [readTxIn, ho, hs] at h
    | some sr =>
      obtain ⟨s, r2⟩ := sr
      cases hq : readLE 4 r2 with
      | none => simp [readTxIn, ho, hs, hq] at h
      | some qr =>
        obtain ⟨q, r3⟩ := qr
        simp only [readTxIn, ho, hs, hq] at h
        injection h with h1
        injection h1 with hi hr
        rw [← hi]
        exact readTxOutPoint_txid32 ho

theorem readWitsFor_prev : ∀ (is : List TxIn) (b : List Nat) (is2 : List TxIn) (r : List Nat),
    readWitsFor is b = some (is2, r) →
    (is2.map fun i => i.previous_output) = is.map fun i => i.previous_output := by
  intro is
  induction is with
  | nil =>
    intro b is2 r h
    simp only [readWitsFor] at h
    injection h with h1
    injection h1 with hi hr
    rw [← hi]
  | cons i is ih =>
    intro b is2 r h
    cases hw : readWitness b with
    | none => simp [readWitsFor, hw] at h
    | some wr =>
      obtain ⟨w, r1⟩ := wr
      cases hrest : readWitsFor is r1 with
      | none => simp [readWitsFor, hw, hrest] at h
      | some isr =>
        obtain ⟨is3, r2⟩ := isr
        simp only [readWitsFor, hw, hrest] at h
        injection h with h1
        injection h1 with hi hr
        rw [← hi, List.map_cons, List.map_cons, ih r1 is3 r2 hrest]

theorem decodeTx_txid32 {b : List Nat} {tx : Transaction} {rest : List Nat}
    (h : decodeTx b = some (tx, rest)) :
    ∀ i ∈ tx.input, i.previous_output.txid.length = 32 := by
  cases hv : readLE 4 b with
  | none => simp [decodeTx, hv] at h
  | some vr =>
  obtain ⟨version, r1⟩ := vr
  cases hins : readVec readTxIn r1 with
  | none => simp [decodeTx, hv, hins] at h
  | some insr =>
  obtain ⟨ins, r2⟩ := insr
  have hwit : ∀ i ∈ ins, i.previous_output.txid.length = 32 :=
    readVec_all (fun hx => readTxIn_txid32 hx) hins
  cases ins with
  | nil =>
    cases r2 with
    | nil => simp [decodeTx, hv, hins] at h
    | cons flag r3 =>
    simp only [decodeTx, hv, hins, List.isEmpty_nil, if_true] at h
    split at h
    case isFalse => cases h
    case isTrue hflag =>
    cases hins2 : readVec readTxIn r3 with
    | none => simp [hins2] at h
    | some insr2 =>
    obtain ⟨ins2, r4⟩ := insr2
    simp only [hins2] at h
    have hwit2 : ∀ i ∈ ins2, i.previous_output.txid.length = 32 :=
      readVec_all (fun hx => readTxIn_txid32 hx) hins2
    cases houts : readVec readTxOut r4 with
    | none => simp [houts] at h
    | some outsr =>
    obtain ⟨outs, r5⟩ := outsr
    simp only [houts] at h
    cases hwits : readWitsFor ins2 r5 with
    | none => simp [hwits] at h
    | some isr =>
    obtain ⟨is3, r6⟩ := isr
    simp only [hwits] at h
    have hprev := readWitsFor_prev ins2 r5 is3 r6 hwits
    split at h
    case isTrue => cases h
    case isFalse =>
    cases hlt : readLE 4 r6 with
    | none => simp [hlt] at h
    | some ltr =>
    obtain ⟨lt, r7⟩ := ltr
    simp only [hlt] at h
    injection h with h1
    injection h1 with htx hr
    rw [← htx]
    intro i hi
    have hmem : i.previous_output ∈ is3.map fun j => j.previous_output :=
      List.mem_map_of_mem _ hi
    rw [hprev] at hmem
    obtain ⟨j, hj, hji⟩ := List.mem_map.mp hmem
    rw [← hji]
    exact hwit2 j hj
  | cons i0 ins0 =>
    simp only [decodeTx, hv, hins, List.isEmpty_cons, Bool.false_eq_true, if_false] at h
    cases houts : readVec readTxOut r2 with
    | none => simp [houts] at h
    | some outsr =>
    obtain ⟨outs, r3⟩ := outsr
    simp only [houts] at h
    cases hlt : readLE 4 r3 with
    | none => simp [hlt] at h
    | some ltr =>
    obtain ⟨lt, r4⟩ := ltr
    simp only [hlt] at h
    injection h with h1
    injection h1 with htx hr
    rw [← htx]
    exact hwit

/-- C8.  For every decoded transaction, `vsize` equals the weight
divided by four rounded up, and the weight equals the witness byte
count plus four times the non-witness byte count of its serialization. -/
theorem claim8_weight_identity {b : List Nat} {tx : Transaction} {rest : List Nat}
    (h : decodeTx b = some (tx, rest)) :
    Transaction.vsize tx = Nat.ceil ((Transaction.weight tx : ℚ) / 4) ∧
    Transaction.weight tx =
      (Transaction.totalSize tx - Transaction.baseSize tx) +
        4 * Transaction.baseSize tx := by
  have h32 := decodeTx_txid32 h
  have hw := weight_eq h32
  have hts := totalSize_eq tx
  constructor
  · rw [Transaction.vsize]
    exact nat_ceil_div4 _
  · have hle : Transaction.baseSize tx ≤ Transaction.totalSize tx := by
      rw [hts]
      omega
    omega

/-- Witness for C8 at a concrete decoded transaction. -/
theorem claim8_weight_identity_witness :
    Transaction.vsize demoTx2 = Nat.ceil ((Transaction.weight demoTx2 : ℚ) / 4) ∧
    Transaction.weight demoTx2 =
      (Transaction.totalSize demoTx2 - Transaction.baseSize demoTx2) +
        4 * Transaction.baseSize demoTx2 :=
  @claim8_weight_identity demoBytes2 demoTx2 [] (by decide)

/-- Witness for C10: the conversion evaluated at a concrete payload,
and injectivity applied at a concrete pair. -/
theorem claim10_address_index_conversion_witness :
    addressIndexToBdk (AddressIndex.Peek 9) = BdkAddressIndex.Peek 9 ∧
    AddressIndex.Reset 2 = AddressIndex.Reset 2 :=
  ⟨claim10_address_index_conversion.2.2.1 9,
    claim10_address_index_conversion.2.2.2.2
      (show addressIndexToBdk (AddressIndex.Reset 2) =
        addressIndexToBdk (AddressIndex.Reset 2) from rfl)⟩

end BdkFfi
